import Mathlib

/-!
# Verification of the client-side sensor-series aggregation module

Shallow embedding of the aggregation pipeline of `integrity_os`:

* `dataByParameter` — the Grouper from
  `src/frontend/src/components/DashboardTab.js` (lines 117–137);
* `computeStats`, `insightFor`, `useAIDashboard` — the Statistics Computer
  and Insight Formatter from `src/frontend/src/hooks/useAIDashboard.js`.

JavaScript numbers after the `Number(·)` coercion are modelled by `JSNum`:
a finite double is represented by an exact rational, every non-finite
result (`NaN`, `±Infinity`) by `JSNum.nonfin` — the source only ever asks
`Number.isFinite` of a coerced value and discards non-finite ones, so the
distinction among non-finite values is never observable.  Arithmetic on the
retained finite values is modelled exactly over `ℚ`.
-/

namespace IntegrityOS

/-- A JavaScript number after `Number(p.value)` coercion: a finite double
(modelled as an exact rational) or a non-finite value (`NaN`/`±Infinity`). -/
inductive JSNum where
  | fin (q : ℚ)
  | nonfin
  deriving DecidableEq, Repr

/-- The `Number.isFinite` test composed with the coercion: the finite payload, if any. -/
def JSNum.toFinite : JSNum → Option ℚ
  | .fin q => some q
  | .nonfin => none

/-- JS `Number.isFinite (Number (p.value))`. -/
def JSNum.isFinite (v : JSNum) : Bool := v.toFinite.isSome

/-- A sensor `Reading` (spec §3): `parameter` may be absent (`undefined`
in JS is `none` here), `value` is the reading value after `Number` coercion,
`is_anomaly` is the upstream anomaly flag.  `timestamp` and `sensor_id` are
carried opaquely. -/
structure Reading where
  parameter : Option String
  value : JSNum
  timestamp : String
  sensor_id : Nat
  is_anomaly : Bool
  deriving DecidableEq, Repr

/-- JS truthiness of `point.parameter`: `undefined`/`null` and the empty
string are falsy, every other string is kept.  Used by the Grouper's guard
`if (point && point.parameter)`. -/
def paramKey (p : Reading) : Option String :=
  match p.parameter with
  | none => none
  | some s => if s = "" then none else some s

/-- The derived `Statistics` record (spec §3):
`{ avg, min, max, latest, trend, anomaliesCount }`. -/
structure Stats where
  avg : ℚ
  min : ℚ
  max : ℚ
  latest : Reading
  trend : ℚ
  anomaliesCount : Nat
  deriving DecidableEq, Repr

/-- JS `points.map(p => Number(p.value)).filter(v => Number.isFinite(v))`:
the sub-list of values that coerce to a finite number, in arrival order
(the coercion to `ℚ` is folded into the filter via `filterMap`). -/
def finiteValues (points : List Reading) : List ℚ :=
  (points.map fun p => p.value).filterMap JSNum.toFinite

/-- The Statistics Computer `computeStats` of `useAIDashboard.js`
(lines 2–17), line by line:

* `if (!points?.length) return null;` together with
  `const latest = points[points.length - 1];` is the match on
  `points.getLast?`;
* `values` is `finiteValues points`; `if (!values.length) return null;`
  is the match on the empty list;
* `sum` is `reduce((a,b) => a+b, 0)`, i.e. `foldl (·+·) 0`;
* `Math.min(...values)` / `Math.max(...values)` on the non-empty `v :: vs`
  are `foldl min v vs` / `foldl max v vs`;
* `N = Math.min(8, values.length)`;
* `trend = values.slice(-N)[N-1] - values.slice(0,N)[0]`: JS
  `slice(-N)` is `drop (length - N)` (natural subtraction matches the
  clamp-at-0 of negative start indices) and `slice(0, N)` is `take N`;
  both indexings are in range here, so `getD _ 0` is exact;
* `anomaliesCount` counts the points with `is_anomaly` truthy. -/
def computeStats (points : List Reading) : Option Stats :=
  match points.getLast? with
  | none => none
  | some latest =>
    match finiteValues points with
    | [] => none
    | v :: vs =>
      let values := v :: vs
      let sum := values.foldl (· + ·) 0
      let avg := sum / (values.length : ℚ)
      let minV := vs.foldl min v
      let maxV := vs.foldl max v
      let N := min 8 values.length
      let trend := (values.drop (values.length - N)).getD (N - 1) 0
                 - (values.take N).getD 0 0
      let anomaliesCount := (points.filter fun p => p.is_anomaly).length
      some { avg := avg, min := minV, max := maxV, latest := latest,
             trend := trend, anomaliesCount := anomaliesCount }

/-- The derived `Insight` record (spec §3): `{ param, text, recommendations[] }`. -/
structure Insight where
  param : String
  text : String
  recommendations : List String
  deriving DecidableEq, Repr

/-- JS `x.toFixed(2)`, modelled as exact decimal rounding of the rational to
two fraction digits (the binary-double digit artefacts of `toFixed` are not
modelled; no claim inspects the digit string). -/
def toFixed2 (q : ℚ) : String :=
  let n : Int := round (q * 100)
  let sign := if n < 0 then "-" else ""
  let m := n.natAbs
  sign ++ toString (m / 100) ++ "." ++
    (if m % 100 < 10 then "0" else "") ++ toString (m % 100)

/-- JS `stats.trend > 0 ? 'растёт' : stats.trend < 0 ? 'снижается' : 'стабилен'`
(useAIDashboard.js line 25). -/
def direction (trend : ℚ) : String :=
  if trend > 0 then "растёт" else if trend < 0 then "снижается" else "стабилен"

/-- The body of the Insight Formatter for one parameter
(useAIDashboard.js lines 20–37, given the already-extracted series):

* `stats = computeStats series`; on `null` the fixed no-data insight;
* `parts` collects the sentence fragments, with the anomaly clause
  appended (`parts.push`) only when `anomaliesCount > 0`;
* `recommendations` mirrors the two independent `push` guards — written as
  a concatenation of the two conditional singletons, in push order — and
  line 36 replaces an empty list by the fallback;
* `(stats.avg || 1)` is JS falsy-defaulting: only a zero average (there is
  no `-0` or `NaN` in `ℚ`) is replaced by `1`;
* `0.1` is the literal one tenth;
* `text` is `parts.join(' ')`. -/
def insightFor (param : String) (series : List Reading) : Insight :=
  match computeStats series with
  | none =>
    { param := param, text := "Нет данных",
      recommendations := ["Ожидаем поступление данных."] }
  | some stats =>
    let parts := ["Параметр " ++ param ++ ": " ++ direction stats.trend ++ ".",
      "Среднее=" ++ toFixed2 stats.avg ++ ", мин=" ++ toFixed2 stats.min ++
        ", макс=" ++ toFixed2 stats.max ++ "."]
    let parts := if stats.anomaliesCount > 0 then
        parts ++ ["Аномалий: " ++ toString stats.anomaliesCount ++ "."]
      else parts
    let recommendations :=
      (if stats.anomaliesCount > 2 then
          ["Проверьте датчик/процесс: серия аномалий."] else []) ++
      (if |stats.trend| > (if stats.avg = 0 then 1 else stats.avg) * (1 / 10) then
          ["Тренд значимый — пересмотрите пороги."] else [])
    let recommendations := if recommendations.isEmpty then
        ["Существенных отклонений не обнаружено."] else recommendations
    { param := param, text := String.intercalate " " parts,
      recommendations := recommendations }

/-- JS object lookup `grouped[param]` with the caller-side default
`dataByParameter?.[param] || []`: the grouped map is modelled as an
association list in key-insertion order. -/
def groupGet (g : List (String × List Reading)) (k : String) : List Reading :=
  match g.find? fun kv => kv.1 == k with
  | some kv => kv.2
  | none => []

/-- The hook `useAIDashboard({ sensorData, dataByParameter, parameters })`
(useAIDashboard.js lines 1, 19–41): maps the Insight Formatter over
`parameters || []`; `sensorData` is destructured but never used by the
body, which is kept here for signature faithfulness. -/
def useAIDashboard (sensorData : List (Option Reading))
    (dataByParameter : List (String × List Reading))
    (parameters : List String) : List Insight :=
  let _ := sensorData
  parameters.map fun param => insightFor param (groupGet dataByParameter param)

/-- One step of the Grouper's `forEach` body on a point that passed the
guard: `grouped[k] = grouped[k] or []; grouped[k].push(point)` — append the
point to the entry for key `k`, creating the entry at the end of the object
when the key is new (JS objects preserve string-key insertion order). -/
def pushPoint (g : List (String × List Reading)) (k : String) (r : Reading) :
    List (String × List Reading) :=
  match g with
  | [] => [(k, [r])]
  | (k', l) :: rest =>
    if k' = k then (k', l ++ [r]) :: rest else (k', l) :: pushPoint rest k r

/-- One iteration of the Grouper's `forEach`: skip a `null`/`undefined`
point (`if (point && ...)`) and a point with a falsy `parameter`
(`... && point.parameter`); push every other point onto its parameter's
group. -/
def groupStep (g : List (String × List Reading)) (point : Option Reading) :
    List (String × List Reading) :=
  match point with
  | none => g
  | some p =>
    match paramKey p with
    | none => g
    | some k => pushPoint g k p

/-- The Grouper `dataByParameter` of `DashboardTab.js` (lines 117–137):
fold `groupStep` over `sensorData` starting from the empty object.  The
debug `console.log` loop in the source does not affect the value. -/
def dataByParameter (sensorData : List (Option Reading)) :
    List (String × List Reading) :=
  sensorData.foldl groupStep []

/-- The Readings the Grouper keeps: non-null entries whose `parameter` is
truthy ("the input minus entries with missing `parameter`", spec §8). -/
def validReadings (sensorData : List (Option Reading)) : List Reading :=
  sensorData.filterMap fun point =>
    match point with
    | none => none
    | some p => if (paramKey p).isSome then some p else none

/-- Two sequential invocations of the full pipeline on one fixed input
triple, returning both results (spec §8, idempotence). -/
def runPipelineTwice (sensorData : List (Option Reading))
    (dbp : List (String × List Reading)) (parameters : List String) :
    List Insight × List Insight :=
  (useAIDashboard sensorData dbp parameters,
   useAIDashboard sensorData dbp parameters)

/-- The `(avg, min, max)` components of a Statistics record. -/
def statsTriple (s : Stats) : ℚ × ℚ × ℚ := (s.avg, s.min, s.max)

/-- A concrete Reading for test inputs: parameter `"t"`, a finite value,
an explicit anomaly flag. -/
def mkRA (q : ℚ) (a : Bool) : Reading :=
  { parameter := some "t", value := .fin q, timestamp := "", sensor_id := 0,
    is_anomaly := a }

/-- A concrete non-anomalous Reading for test inputs. -/
def mkR (q : ℚ) : Reading := mkRA q false

/-- The spec's §8 example series `[1,2,3,4,5,6,7,8,9,10]` in arrival order. -/
def series10 : List Reading :=
  [mkR 1, mkR 2, mkR 3, mkR 4, mkR 5, mkR 6, mkR 7, mkR 8, mkR 9, mkR 10]

/-- Concrete two-point series for witnesses: values 1 and 2. -/
def wSeries2 : List Reading := [mkR 1, mkR 2]

/-- The Statistics that `computeStats` produces on `wSeries2`. -/
def wStats2 : Stats :=
  { avg := 3 / 2, min := 1, max := 2, latest := mkR 2, trend := 1,
    anomaliesCount := 0 }

/-- The Statistics that `computeStats` produces on the one-point series
`[mkR 5]`. -/
def wStats5 : Stats :=
  { avg := 5, min := 5, max := 5, latest := mkR 5, trend := 0,
    anomaliesCount := 0 }

/-- Concrete three-anomaly series for witnesses. -/
def wSeries3a : List Reading := [mkRA 1 true, mkRA 1 true, mkRA 1 true]

/-- The Statistics that `computeStats` produces on `wSeries3a`. -/
def wStats3a : Stats :=
  { avg := 1, min := 1, max := 1, latest := mkRA 1 true, trend := 0,
    anomaliesCount := 3 }

/-- A Reading whose value does not coerce to a finite number. -/
def rNonfin : Reading :=
  { parameter := some "t", value := .nonfin, timestamp := "", sensor_id := 0,
    is_anomaly := false }

/-- Concrete all-identical series (two points of value 3), for witnesses. -/
def wSeriesConst : List Reading := [mkR 3, mkR 3]

/-- The Statistics that `computeStats` produces on `wSeriesConst`. -/
def wStatsConst : Stats :=
  { avg := 3, min := 3, max := 3, latest := mkR 3, trend := 0,
    anomaliesCount := 0 }

/-- Concrete single-point series with a negative value, for witnesses. -/
def wSeriesNeg : List Reading := [mkR (-1)]

/-- The Statistics that `computeStats` produces on `wSeriesNeg`. -/
def wStatsNeg : Stats :=
  { avg := -1, min := -1, max := -1, latest := mkR (-1), trend := 0,
    anomaliesCount := 0 }

/-! ## Helper lemmas -/

lemma JSNum.toFinite_eq_none {v : JSNum} (h : v.isFinite = false) :
    v.toFinite = none := by
  cases v <;> simp [JSNum.isFinite, JSNum.toFinite] at h ⊢

lemma finiteValues_append (p₁ p₂ : List Reading) :
    finiteValues (p₁ ++ p₂) = finiteValues p₁ ++ finiteValues p₂ := by
  simp [finiteValues]

lemma finiteValues_cons_nonfin {r : Reading} (h : r.value.isFinite = false)
    (p : List Reading) : finiteValues (r :: p) = finiteValues p := by
  simp [finiteValues, List.filterMap_cons, JSNum.toFinite_eq_none h]

lemma ne_nil_of_finiteValues_ne_nil {points : List Reading}
    (h : finiteValues points ≠ []) : points ≠ [] := by
  intro hp
  exact h (by simp [hp, finiteValues])

lemma drop_getD_eq_getLast (l : List ℚ) (hl : l ≠ []) {N : ℕ}
    (h1 : 1 ≤ N) (h2 : N ≤ l.length) :
    (l.drop (l.length - N)).getD (N - 1) 0 = l.getLast hl := by
  rw [List.getD_eq_getElem?_getD, List.getElem?_drop]
  have hidx : l.length - N + (N - 1) = l.length - 1 := by omega
  rw [hidx, ← List.getLast?_eq_getElem?, List.getLast?_eq_getLast l hl,
    Option.getD_some]

lemma take_getD_eq_head (l : List ℚ) (hl : l ≠ []) {N : ℕ} (h1 : 1 ≤ N) :
    (l.take N).getD 0 0 = l.head hl := by
  cases l with
  | nil => exact absurd rfl hl
  | cons v vs =>
    cases N with
    | zero => omega
    | succ n => simp [List.take_succ_cons]

/-- The `trend` expression of `computeStats` on a non-empty value list
collapses to `last − head`: `slice(-N)[N-1]` is the global last element and
`slice(0,N)[0]` the global first, whatever `N = min(8, count)` is. -/
lemma trend_formula (v : ℚ) (vs : List ℚ) :
    ((v :: vs).drop ((v :: vs).length - min 8 (v :: vs).length)).getD
        (min 8 (v :: vs).length - 1) 0
      - ((v :: vs).take (min 8 (v :: vs).length)).getD 0 0
    = (v :: vs).getLast (List.cons_ne_nil v vs) - v := by
  have hne : (v :: vs) ≠ [] := List.cons_ne_nil v vs
  have h1 : 1 ≤ min 8 (v :: vs).length := by
    simp only [List.length_cons]
    omega
  have h2 : min 8 (v :: vs).length ≤ (v :: vs).length :=
    min_le_right _ _
  rw [drop_getD_eq_getLast _ hne h1 h2, take_getD_eq_head _ hne h1,
    List.head_cons]

/-- Closed form of `computeStats` on a series whose last point and
non-empty finite-value list are given. -/
lemma computeStats_eq (points : List Reading) (latest : Reading) (v : ℚ)
    (vs : List ℚ) (hl : points.getLast? = some latest)
    (hv : finiteValues points = v :: vs) :
    computeStats points = some
      { avg := (v :: vs).foldl (· + ·) 0 / ((v :: vs).length : ℚ),
        min := vs.foldl min v, max := vs.foldl max v, latest := latest,
        trend := (v :: vs).getLast (List.cons_ne_nil v vs) - v,
        anomaliesCount := (points.filter fun p => p.is_anomaly).length } := by
  unfold computeStats
  rw [hl, hv]
  simp only [trend_formula]

/-- Folded `Math.min(...values)` yields an element of the value list. -/
lemma foldl_min_mem (vs : List ℚ) (v : ℚ) : vs.foldl min v ∈ v :: vs := by
  induction vs generalizing v with
  | nil => simp
  | cons a as ih =>
    simp only [List.foldl_cons]
    rcases List.mem_cons.mp (ih (min v a)) with h | h
    · rcases min_choice v a with hc | hc <;> rw [h, hc] <;> simp
    · simp [h]

/-- Folded `Math.min(...values)` is a lower bound of the value list. -/
lemma foldl_min_le (vs : List ℚ) (v : ℚ) :
    ∀ x ∈ v :: vs, vs.foldl min v ≤ x := by
  induction vs generalizing v with
  | nil => simp
  | cons a as ih =>
    intro x hx
    simp only [List.foldl_cons]
    have hbound : as.foldl min (min v a) ≤ min v a :=
      ih (min v a) (min v a) (by simp)
    rcases List.mem_cons.mp hx with rfl | hx
    · exact hbound.trans (min_le_left _ _)
    · rcases List.mem_cons.mp hx with rfl | hx
      · exact hbound.trans (min_le_right _ _)
      · exact ih (min v a) x (by simp [hx])

/-- Folded `Math.max(...values)` yields an element of the value list. -/
lemma foldl_max_mem (vs : List ℚ) (v : ℚ) : vs.foldl max v ∈ v :: vs := by
  induction vs generalizing v with
  | nil => simp
  | cons a as ih =>
    simp only [List.foldl_cons]
    rcases List.mem_cons.mp (ih (max v a)) with h | h
    · rcases max_choice v a with hc | hc <;> rw [h, hc] <;> simp
    · simp [h]

/-- Folded `Math.max(...values)` is an upper bound of the value list. -/
lemma le_foldl_max (vs : List ℚ) (v : ℚ) :
    ∀ x ∈ v :: vs, x ≤ vs.foldl max v := by
  induction vs generalizing v with
  | nil => simp
  | cons a as ih =>
    intro x hx
    simp only [List.foldl_cons]
    have hbound : max v a ≤ as.foldl max (max v a) :=
      ih (max v a) (max v a) (by simp)
    rcases List.mem_cons.mp hx with rfl | hx
    · exact (le_max_left _ _).trans hbound
    · rcases List.mem_cons.mp hx with rfl | hx
      · exact (le_max_right _ _).trans hbound
      · exact ih (max v a) x (by simp [hx])

/-- Inversion for `computeStats = some s`: the last point and a non-empty
finite-value list exist and `s` is the record built from them. -/
lemma computeStats_some_inv {points : List Reading} {s : Stats}
    (h : computeStats points = some s) :
    ∃ latest v vs, points.getLast? = some latest ∧
      finiteValues points = v :: vs ∧
      s = { avg := (v :: vs).foldl (· + ·) 0 / ((v :: vs).length : ℚ),
            min := vs.foldl min v, max := vs.foldl max v, latest := latest,
            trend := (v :: vs).getLast (List.cons_ne_nil v vs) - v,
            anomaliesCount :=
              (points.filter fun p => p.is_anomaly).length } := by
  cases hl : points.getLast? with
  | none => rw [computeStats, hl] at h; cases h
  | some latest =>
    cases hv : finiteValues points with
    | nil => rw [computeStats, hl, hv] at h; cases h
    | cons v vs =>
      refine ⟨latest, v, vs, rfl, rfl, ?_⟩
      have := computeStats_eq points latest v vs hl hv
      rw [this] at h
      exact (Option.some.inj h).symm

/-- The trend of any successfully computed Statistics is the last
finite-coercible value of the whole series minus the first one. -/
lemma trend_eq_last_sub_head {points : List Reading} {s : Stats}
    (h : computeStats points = some s) :
    finiteValues points ≠ [] ∧
      s.trend = (finiteValues points).getLastD 0 -
        (finiteValues points).headD 0 := by
  obtain ⟨latest, v, vs, hl, hv, rfl⟩ := computeStats_some_inv h
  refine ⟨by simp [hv], ?_⟩
  rw [hv]
  simp [List.getLastD_eq_getLast?,
    List.getLast?_eq_getLast (v :: vs) (List.cons_ne_nil v vs)]

/-! ## Claim theorems -/

/-- Claim C2. For every series with at least one finite-coercible value, the
trend computed by `computeStats` equals the last finite-coercible value of
the entire series minus the first finite-coercible value of the entire
series — the `N = min(8, count)` window never affects the result — and, in
particular, every single-element series has trend `0`. -/
theorem computeStats_trend_ignores_window :
    (∀ (points : List Reading) (s : Stats), computeStats points = some s →
      finiteValues points ≠ [] ∧
        s.trend = (finiteValues points).getLastD 0 -
          (finiteValues points).headD 0)
    ∧ ∀ (p : Reading) (s : Stats), computeStats [p] = some s →
        s.trend = 0 := by
  constructor
  · exact fun points s h => trend_eq_last_sub_head h
  · intro p s h
    obtain ⟨hne, htr⟩ := trend_eq_last_sub_head h
    cases hfv : finiteValues [p] with
    | nil => exact absurd hfv hne
    | cons v vs =>
      have hlen : (v :: vs).length ≤ 1 := by
        rw [← hfv]
        simpa [finiteValues] using
          List.length_filterMap_le JSNum.toFinite ([p].map fun q => q.value)
      have hvs : vs = [] := by
        simp only [List.length_cons] at hlen
        exact List.eq_nil_of_length_eq_zero (by omega)
      subst hvs
      rw [htr, hfv]
      simp

/-- Witness for claim C2 at the concrete series `[1, 2]` (general part) and
the concrete single-element series `[5]` (single-element part). -/
theorem computeStats_trend_ignores_window_witness :
    (finiteValues wSeries2 ≠ [] ∧
      wStats2.trend = (finiteValues wSeries2).getLastD 0 -
        (finiteValues wSeries2).headD 0) ∧
    wStats5.trend = 0 := by
  constructor
  · exact computeStats_trend_ignores_window.1 wSeries2 wStats2 (by
      norm_num [wSeries2, wStats2, computeStats, finiteValues,
        List.filterMap_cons, JSNum.toFinite, mkR, mkRA])
  · exact computeStats_trend_ignores_window.2 (mkR 5) wStats5 (by
      norm_num [wStats5, computeStats, finiteValues,
        List.filterMap_cons, JSNum.toFinite, mkR, mkRA])

/-- Claim C3. `computeStats` returns `null` exactly when the series is empty
or contains no value that coerces to a finite number; absence is signalled
by the `null` sentinel (the embedded function is total, mirroring that the
source throws no exception). -/
theorem computeStats_none_iff (points : List Reading) :
    computeStats points = none ↔
      points = [] ∨ finiteValues points = [] := by
  constructor
  · intro h
    cases hl : points.getLast? with
    | none => exact Or.inl (List.getLast?_eq_none_iff.mp hl)
    | some latest =>
      cases hv : finiteValues points with
      | nil => exact Or.inr rfl
      | cons v vs =>
        rw [computeStats_eq points latest v vs hl hv] at h
        cases h
  · intro h
    rcases h with h | h
    · subst h; rfl
    · rw [computeStats]
      cases hl : points.getLast? with
      | none => rfl
      | some latest => rw [h]

/-- Claim C1, counterexample. On the spec's own example series
`[1,…,10]` the trend is not `7 = 10 − 3`: the claimed last-8-window
semantics does not match the code. -/
theorem series10_trend_ne_seven :
    (computeStats series10).map Stats.trend ≠ some 7 := by
  simp [series10, mkR, mkRA, computeStats, finiteValues, List.filterMap_cons,
    JSNum.toFinite]
  norm_num

/-- Claim C1, amended. On the series `[1,…,10]` the trend is `9 = 10 − 1`:
`values.slice(-N)[N-1]` is the last value of the whole series and
`values.slice(0,N)[0]` its first, so the `N = min(8, count)` window has no
effect. -/
theorem series10_trend_eq_nine :
    (computeStats series10).map Stats.trend = some 9 := by
  simp [series10, mkR, mkRA, computeStats, finiteValues, List.filterMap_cons,
    JSNum.toFinite]
  norm_num

/-- Claim C5. Whenever the computed Statistics has `anomaliesCount > 2`, the
Insight Formatter's recommendation list contains the "investigate
sensor/process" rule text, independently of the trend rule. -/
theorem anomalies_rule_fires (param : String) (points : List Reading)
    (s : Stats) (h : computeStats points = some s)
    (h2 : 2 < s.anomaliesCount) :
    "Проверьте датчик/процесс: серия аномалий." ∈
      (insightFor param points).recommendations := by
  by_cases hc : |s.trend| > (if s.avg = 0 then 1 else s.avg) * (1 / 10) <;>
    simp [insightFor, h, h2, hc]

/-- Witness for claim C5 at a concrete three-anomaly series. -/
theorem anomalies_rule_fires_witness :
    "Проверьте датчик/процесс: серия аномалий." ∈
      (insightFor "t" wSeries3a).recommendations :=
  anomalies_rule_fires "t" wSeries3a wStats3a
    (by norm_num [wSeries3a, wStats3a, computeStats, finiteValues,
      List.filterMap_cons, JSNum.toFinite, mkR, mkRA])
    (by norm_num [wStats3a])

/-- Claim C6. For every series whose Statistics is `null`, the Insight
Formatter returns the fixed no-data text and a recommendation list with
exactly the single awaiting-data message. -/
theorem insight_no_data (param : String) (series : List Reading)
    (h : computeStats series = none) :
    (insightFor param series).text = "Нет данных" ∧
      (insightFor param series).recommendations =
        ["Ожидаем поступление данных."] := by
  simp [insightFor, h]

/-- Witness for claim C6 at the empty series. -/
theorem insight_no_data_witness :
    (insightFor "x" []).text = "Нет данных" ∧
      (insightFor "x" []).recommendations =
        ["Ожидаем поступление данных."] :=
  insight_no_data "x" [] rfl

/-- Claim C10. A strictly negative average makes the "significant trend"
rule fire for every trend value (including `0`): `avg || 1` only replaces
a zero average, so the threshold `avg * 0.1` is negative and
`abs(trend)` always strictly exceeds it. -/
theorem negative_avg_trend_rule (param : String) (points : List Reading)
    (s : Stats) (h : computeStats points = some s) (hneg : s.avg < 0) :
    "Тренд значимый — пересмотрите пороги." ∈
      (insightFor param points).recommendations := by
  have hcond : (if s.avg = 0 then (10 : ℚ)⁻¹ else s.avg * 10⁻¹) <
      |s.trend| := by
    rw [if_neg (ne_of_lt hneg)]
    exact lt_of_lt_of_le (mul_neg_of_neg_of_pos hneg (by norm_num))
      (abs_nonneg _)
  have hnle : ¬(|s.trend| ≤ if s.avg = 0 then (10 : ℚ)⁻¹ else
      s.avg * 10⁻¹) := not_le.mpr hcond
  by_cases ha : 2 < s.anomaliesCount <;>
    simp [insightFor, h, ha, hcond, hnle]

/-- Witness for claim C10 at the concrete series `[-1]` (negative average,
zero trend). -/
theorem negative_avg_trend_rule_witness :
    "Тренд значимый — пересмотрите пороги." ∈
      (insightFor "t" wSeriesNeg).recommendations :=
  negative_avg_trend_rule "t" wSeriesNeg wStatsNeg
    (by norm_num [wSeriesNeg, wStatsNeg, computeStats, finiteValues,
      List.filterMap_cons, JSNum.toFinite, mkR, mkRA])
    (by norm_num [wStatsNeg])

/-- Claim C7. Values that do not coerce to a finite number are excluded from
`avg`/`min`/`max` without error: inserting a non-finite reading anywhere in
a series changes none of the three (including whether the result is
`null`), and on success `min`/`max` are attained on — and bound — exactly
the finite-coercible subset. -/
theorem nonfinite_excluded :
    (∀ (p₁ p₂ : List Reading) (r : Reading), r.value.isFinite = false →
      (computeStats (p₁ ++ r :: p₂)).map statsTriple =
        (computeStats (p₁ ++ p₂)).map statsTriple)
    ∧ ∀ (points : List Reading) (s : Stats), computeStats points = some s →
        s.min ∈ finiteValues points ∧ s.max ∈ finiteValues points ∧
          ∀ x ∈ finiteValues points, s.min ≤ x ∧ x ≤ s.max := by
  constructor
  · intro p₁ p₂ r hr
    have hfv : finiteValues (p₁ ++ r :: p₂) = finiteValues (p₁ ++ p₂) := by
      rw [finiteValues_append, finiteValues_cons_nonfin hr,
        ← finiteValues_append]
    cases hv : finiteValues (p₁ ++ p₂) with
    | nil =>
      have e1 : computeStats (p₁ ++ p₂) = none := by
        rw [computeStats]
        cases hl : (p₁ ++ p₂).getLast? with
        | none => rfl
        | some latest => rw [hv]
      have e2 : computeStats (p₁ ++ r :: p₂) = none := by
        rw [computeStats]
        cases hl : (p₁ ++ r :: p₂).getLast? with
        | none => rfl
        | some latest => rw [hfv, hv]
      rw [e1, e2]
    | cons v vs =>
      have hne₂ : p₁ ++ p₂ ≠ [] :=
        ne_nil_of_finiteValues_ne_nil (by rw [hv]; exact List.cons_ne_nil v vs)
      have hne₁ : p₁ ++ r :: p₂ ≠ [] := by simp
      rw [computeStats_eq _ _ v vs (List.getLast?_eq_getLast _ hne₁)
          (hfv.trans hv),
        computeStats_eq _ _ v vs (List.getLast?_eq_getLast _ hne₂) hv]
      rfl
  · intro points s h
    obtain ⟨latest, v, vs, hl, hv, rfl⟩ := computeStats_some_inv h
    rw [hv]
    exact ⟨foldl_min_mem vs v, foldl_max_mem vs v,
      fun x hx => ⟨foldl_min_le vs v x hx, le_foldl_max vs v x hx⟩⟩

/-- Witness for claim C7: a non-finite reading inserted into `[1, 2]` leaves
`avg`/`min`/`max` unchanged, and on `[1, 2]` `min`/`max` bound the
member `1`. -/
theorem nonfinite_excluded_witness :
    ((computeStats [mkR 1, rNonfin, mkR 2]).map statsTriple =
      (computeStats [mkR 1, mkR 2]).map statsTriple) ∧
    wStats2.min ∈ finiteValues wSeries2 ∧
    wStats2.min ≤ 1 ∧ (1 : ℚ) ≤ wStats2.max := by
  have hw : computeStats wSeries2 = some wStats2 := by
    norm_num [wSeries2, wStats2, computeStats, finiteValues,
      List.filterMap_cons, JSNum.toFinite, mkR, mkRA]
  have h1 : (1 : ℚ) ∈ finiteValues wSeries2 := by
    norm_num [wSeries2, finiteValues, List.filterMap_cons, JSNum.toFinite,
      mkR, mkRA]
  exact ⟨nonfinite_excluded.1 [mkR 1] [mkR 2] rNonfin rfl,
    (nonfinite_excluded.2 wSeries2 wStats2 hw).1,
    ((nonfinite_excluded.2 wSeries2 wStats2 hw).2.2 1 h1).1,
    ((nonfinite_excluded.2 wSeries2 wStats2 hw).2.2 1 h1).2⟩

lemma finiteValues_all_fin {points : List Reading} {v : ℚ}
    (hall : ∀ p ∈ points, p.value = JSNum.fin v) :
    finiteValues points = List.replicate points.length v := by
  induction points with
  | nil => rfl
  | cons p ps ih =>
    have hp : p.value = JSNum.fin v := hall p (by simp)
    have hrest : ∀ q ∈ ps, q.value = JSNum.fin v :=
      fun q hq => hall q (by simp [hq])
    simp [finiteValues, List.filterMap_cons, hp, JSNum.toFinite,
      List.replicate_succ]
    simpa [finiteValues] using ih hrest

lemma foldl_add_replicate (n : ℕ) (v c : ℚ) :
    (List.replicate n v).foldl (· + ·) c = c + n * v := by
  induction n generalizing c with
  | zero => simp
  | succ m ih =>
    rw [List.replicate_succ, List.foldl_cons, ih]
    push_cast
    ring

lemma foldl_min_replicate (n : ℕ) (v : ℚ) :
    (List.replicate n v).foldl min v = v := by
  induction n with
  | zero => rfl
  | succ m ih => rw [List.replicate_succ, List.foldl_cons, min_self, ih]

lemma foldl_max_replicate (n : ℕ) (v : ℚ) :
    (List.replicate n v).foldl max v = v := by
  induction n with
  | zero => rfl
  | succ m ih => rw [List.replicate_succ, List.foldl_cons, max_self, ih]

/-- Claim C8. On a non-empty series whose values all equal the same finite
`v`, `computeStats` succeeds and returns `avg = min = max = v` and
`trend = 0`. -/
theorem constant_series_stats :
    ∀ (points : List Reading) (v : ℚ), points ≠ [] →
      (∀ p ∈ points, p.value = JSNum.fin v) →
      computeStats points ≠ none ∧
        ∀ s : Stats, computeStats points = some s →
          s.avg = v ∧ s.min = v ∧ s.max = v ∧ s.trend = 0 := by
  intro points v hne hall
  have hfv : finiteValues points = List.replicate points.length v :=
    finiteValues_all_fin hall
  obtain ⟨n, hn⟩ : ∃ n, points.length = n + 1 := by
    have : points.length ≠ 0 := by simpa using hne
    exact ⟨points.length - 1, by omega⟩
  have hfv' : finiteValues points = v :: List.replicate n v := by
    rw [hfv, hn, List.replicate_succ]
  have hcs := computeStats_eq points (points.getLast hne) v
    (List.replicate n v) (List.getLast?_eq_getLast points hne) hfv'
  constructor
  · rw [hcs]; exact Option.some_ne_none _
  · intro s hs
    rw [hcs] at hs
    obtain rfl := (Option.some.inj hs).symm
    refine ⟨?_, foldl_min_replicate n v, foldl_max_replicate n v, ?_⟩
    · show (v :: List.replicate n v).foldl (· + ·) 0 /
        ((v :: List.replicate n v).length : ℚ) = v
      rw [← List.replicate_succ, foldl_add_replicate, List.length_replicate]
      have hnz : ((n : ℚ) + 1) ≠ 0 := by positivity
      field_simp
    · show (v :: List.replicate n v).getLast (List.cons_ne_nil _ _) - v = 0
      have hmem : (v :: List.replicate n v).getLast
          (List.cons_ne_nil v (List.replicate n v)) ∈
            List.replicate (n + 1) v := by
        rw [List.replicate_succ]
        exact List.getLast_mem (List.cons_ne_nil v (List.replicate n v))
      exact sub_eq_zero.mpr (List.eq_of_mem_replicate hmem)

/-- Witness for claim C8 at the concrete all-3 series `[3, 3]`. -/
theorem constant_series_stats_witness :
    wStatsConst.avg = 3 ∧ wStatsConst.min = 3 ∧ wStatsConst.max = 3 ∧
      wStatsConst.trend = 0 :=
  (constant_series_stats wSeriesConst 3 (by simp [wSeriesConst])
      (by norm_num [wSeriesConst, mkR, mkRA])).2 wStatsConst
    (by norm_num [wSeriesConst, wStatsConst, computeStats, finiteValues,
      List.filterMap_cons, JSNum.toFinite, mkR, mkRA])

/-- Claim C9. Two invocations of the full pipeline on the same fixed input
triple produce identical output.  The source module keeps no module-level
mutable state and its only side effect (`console.log` in the Grouper) does
not feed back into the value, so the embedding is a pure function and
determinism holds by construction. -/
theorem pipeline_deterministic (sd : List (Option Reading))
    (dbp : List (String × List Reading)) (ps : List String) :
    (runPipelineTwice sd dbp ps).1 = (runPipelineTwice sd dbp ps).2 := rfl

lemma groupGet_nil (k : String) : groupGet [] k = [] := rfl

lemma groupGet_cons (k₁ : String) (l : List Reading)
    (rest : List (String × List Reading)) (k : String) :
    groupGet ((k₁, l) :: rest) k = if k₁ = k then l else groupGet rest k := by
  by_cases h : k₁ = k <;> simp [groupGet, List.find?_cons, h]

lemma pushPoint_cons_same (k : String) (l : List Reading)
    (rest : List (String × List Reading)) (r : Reading) :
    pushPoint ((k, l) :: rest) k r = (k, l ++ [r]) :: rest := by
  simp [pushPoint]

lemma pushPoint_cons_other (k₁ : String) (l : List Reading)
    (rest : List (String × List Reading)) (k : String) (r : Reading)
    (h : k₁ ≠ k) :
    pushPoint ((k₁, l) :: rest) k r = (k₁, l) :: pushPoint rest k r := by
  simp [pushPoint, h]

lemma groupGet_pushPoint_same (g : List (String × List Reading))
    (k : String) (r : Reading) :
    groupGet (pushPoint g k r) k = groupGet g k ++ [r] := by
  induction g with
  | nil => simp [pushPoint, groupGet_cons, groupGet_nil]
  | cons kv rest ih =>
    obtain ⟨k', l⟩ := kv
    by_cases hk : k' = k
    · subst hk
      rw [pushPoint_cons_same, groupGet_cons, groupGet_cons, if_pos rfl,
        if_pos rfl]
    · rw [pushPoint_cons_other _ _ _ _ _ hk, groupGet_cons, groupGet_cons,
        if_neg hk, if_neg hk, ih]

lemma groupGet_pushPoint_other (g : List (String × List Reading))
    (k : String) (r : Reading) (k' : String) (h : k' ≠ k) :
    groupGet (pushPoint g k r) k' = groupGet g k' := by
  induction g with
  | nil => simp [pushPoint, groupGet_cons, groupGet_nil, Ne.symm h]
  | cons kv rest ih =>
    obtain ⟨k₁, l⟩ := kv
    by_cases hk : k₁ = k
    · subst hk
      rw [pushPoint_cons_same, groupGet_cons, groupGet_cons,
        if_neg (Ne.symm h), if_neg (Ne.symm h)]
    · rw [pushPoint_cons_other _ _ _ _ _ hk, groupGet_cons, groupGet_cons,
        ih]

lemma groupGet_foldl (l : List (Option Reading))
    (g : List (String × List Reading)) (k : String) :
    groupGet (l.foldl groupStep g) k =
      groupGet g k ++
        ((validReadings l).filter fun p => paramKey p == some k) := by
  induction l generalizing g with
  | nil => simp [validReadings]
  | cons pt l ih =>
    rw [List.foldl_cons]
    cases pt with
    | none =>
      have hval : validReadings (none :: l) = validReadings l := by
        simp [validReadings]
      rw [show groupStep g none = g from rfl, ih, hval]
    | some p =>
      cases hk : paramKey p with
      | none =>
        have hstep : groupStep g (some p) = g := by simp [groupStep, hk]
        have hval : validReadings (some p :: l) = validReadings l := by
          simp [validReadings, List.filterMap_cons, hk]
        rw [hstep, ih, hval]
      | some kp =>
        have hstep : groupStep g (some p) = pushPoint g kp p := by
          simp [groupStep, hk]
        have hval : validReadings (some p :: l) = p :: validReadings l := by
          simp [validReadings, List.filterMap_cons, hk]
        rw [hstep, ih, hval, List.filter_cons]
        by_cases hkk : kp = k
        · subst hkk
          have hbeq : (paramKey p == some kp) = true := by simp [hk]
          rw [hbeq, groupGet_pushPoint_same]
          simp
        · have hbeq : (paramKey p == some k) = false := by
            simp [hk, hkk]
          rw [hbeq, groupGet_pushPoint_other g kp p k (fun he => hkk he.symm)]
          simp

lemma flatten_pushPoint (g : List (String × List Reading)) (k : String)
    (r : Reading) :
    List.Perm ((pushPoint g k r).map Prod.snd).flatten
      ((g.map Prod.snd).flatten ++ [r]) := by
  induction g with
  | nil => simp [pushPoint]
  | cons kv rest ih =>
    obtain ⟨k₁, l⟩ := kv
    by_cases hk : k₁ = k
    · subst hk
      rw [pushPoint_cons_same, List.map_cons, List.map_cons,
        List.flatten_cons, List.flatten_cons, List.append_assoc,
        List.append_assoc]
      exact List.Perm.append_left l List.perm_append_comm
    · rw [pushPoint_cons_other _ _ _ _ _ hk, List.map_cons, List.map_cons,
        List.flatten_cons, List.flatten_cons, List.append_assoc]
      exact List.Perm.append_left l ih

lemma flatten_foldl (l : List (Option Reading))
    (g : List (String × List Reading)) :
    List.Perm ((l.foldl groupStep g).map Prod.snd).flatten
      ((g.map Prod.snd).flatten ++ validReadings l) := by
  induction l generalizing g with
  | nil => simp [validReadings]
  | cons pt l ih =>
    rw [List.foldl_cons]
    cases pt with
    | none =>
      have hval : validReadings (none :: l) = validReadings l := by
        simp [validReadings]
      rw [show groupStep g none = g from rfl, hval]
      exact ih g
    | some p =>
      cases hk : paramKey p with
      | none =>
        have hstep : groupStep g (some p) = g := by simp [groupStep, hk]
        have hval : validReadings (some p :: l) = validReadings l := by
          simp [validReadings, List.filterMap_cons, hk]
        rw [hstep, hval]
        exact ih g
      | some kp =>
        have hstep : groupStep g (some p) = pushPoint g kp p := by
          simp [groupStep, hk]
        have hval : validReadings (some p :: l) = p :: validReadings l := by
          simp [validReadings, List.filterMap_cons, hk]
        rw [hstep, hval]
        refine (ih (pushPoint g kp p)).trans ?_
        refine ((flatten_pushPoint g kp p).append_right
          (validReadings l)).trans ?_
        rw [List.append_assoc, List.singleton_append]

/-- Claim C4. The Grouper partitions the input: each group is exactly the
ordered subsequence of the input carrying that parameter (so relative
order within a group equals relative order in the input), and the
re-flattened union of all groups is a permutation of the input minus the
entries with a missing (falsy) `parameter`. -/
theorem grouper_partition (sensorData : List (Option Reading)) :
    (∀ k : String, groupGet (dataByParameter sensorData) k =
      (validReadings sensorData).filter fun p => paramKey p == some k)
    ∧ List.Perm ((dataByParameter sensorData).map Prod.snd).flatten
        (validReadings sensorData) := by
  constructor
  · intro k
    have h := groupGet_foldl sensorData [] k
    simpa [dataByParameter, groupGet] using h
  · have h := flatten_foldl sensorData []
    simpa [dataByParameter] using h

end IntegrityOS
